import Mathlib

/-!
A verification development for the cedict package (a CEDict dictionary
tokenizer, entry parser and pinyin tone renderer written in Go).

Modelling conventions.

* Go strings are modelled as `List Char` (Lean `String.data`).  All byte-level
  operations of the source (`p[len(p)-1]`, `strings.Contains`, `strings.Replace`,
  `strings.LastIndexAny`, per-byte scanning for `'\n'`) are modelled at the rune
  level; this is faithful because every byte the source compares against is an
  ASCII byte, and in valid UTF-8 an ASCII byte never occurs inside a multi-byte
  rune encoding.
* A Go runtime panic (out-of-range string index) is modelled by `Option`/an
  explicit `crash` constructor: `none`/`crash` means the corresponding Go call
  panics.
* `strings.ToLower` is modelled by ASCII case mapping (`lowerChar`); the pinyin
  alphabet the package works over is ASCII, so this agrees with Go on every
  string the dictionary format produces.
* The `bufio.Scanner` driven by the custom split functions `consumeComment` /
  `consumeEntry` is modelled, per its contract, as a loop over the lines of
  the stream (split on `'\n'`, with a final unterminated line flushed at end
  of input).  A line whose token comes back empty (a blank line) yields a nil
  token, which the scanner suppresses without surfacing it.  When the input
  is exhausted the scanner calls the split function once more with an empty
  slice (the documented `SplitFunc` protocol for end of input); the split
  function of `New` then indexes `data[0]` out of range, so `NextEntry`
  panics at exhaustion — and immediately on an empty stream — instead of
  reaching its `return NoMoreEntries` line.  The exhaustion case is therefore
  modelled by `.crash`, and the `NoMoreEntries` / read-failure returns of the
  source are unreachable for a stream that is driven to its end.
-/

namespace Cedict

/-- Go regexp whitespace (the `\s` class used via `\S`): space, tab, newline,
form feed, carriage return. -/
def isGoSpace (c : Char) : Bool :=
  c = ' ' || c = '\t' || c = '\n' || c = '\x0c' || c = '\r'

/-- `strings.Split(s, sep)` for a one-character separator, as in
`strings.Split(pv, " ")` of the source: splitting the empty string yields
one empty field. -/
def splitOnChar (sep : Char) : List Char → List (List Char)
  | [] => [[]]
  | c :: cs =>
    if c = sep then [] :: splitOnChar sep cs
    else
      match splitOnChar sep cs with
      | t :: ts => (c :: t) :: ts
      | [] => [[c]]

/-- Join definition strings with `'/'` (the inverse of splitting the captured
defs group on `"/"`). -/
def joinSlash : List (List Char) → List Char
  | [] => []
  | [d] => d
  | d :: rest => d ++ '/' :: joinSlash rest

/-- `strings.Replace(s, "u:", "ü", -1)` of `convertToTones`: left-to-right,
non-overlapping replacement of the two-character sequence `u:`. -/
def replaceUU : List Char → List Char
  | 'u' :: ':' :: rest => 'ü' :: replaceUU rest
  | c :: rest => c :: replaceUU rest
  | [] => []

/-- `strings.Replace(s, "u:", "v", -1)` of `pinyinNoTones`. -/
def replaceUV : List Char → List Char
  | 'u' :: ':' :: rest => 'v' :: replaceUV rest
  | c :: rest => c :: replaceUV rest
  | [] => []

/-- ASCII lower-casing of one character (model of `strings.ToLower` on the
ASCII alphabet the pinyin field uses). -/
def lowerChar (c : Char) : Char :=
  if 'A' ≤ c ∧ c ≤ 'Z' then Char.ofNat (c.toNat + 32) else c

/-- `strings.ToLower` on a rune list. -/
def lowerList (l : List Char) : List Char := l.map lowerChar

/-- The fixed 6-row tone lookup table of `toneLookupTable`: row 0 and row 5
are the unmarked vowel, rows 1-4 carry the four tone diacritics.  Characters
outside the six vowel letters are returned unchanged (the source never looks
such a character up). -/
def toneVowel (tone : Nat) (v : Char) : Char :=
  match tone, v with
  | 1, 'a' => 'ā' | 2, 'a' => 'á' | 3, 'a' => 'ǎ' | 4, 'a' => 'à'
  | 1, 'e' => 'ē' | 2, 'e' => 'é' | 3, 'e' => 'ě' | 4, 'e' => 'è'
  | 1, 'i' => 'ī' | 2, 'i' => 'í' | 3, 'i' => 'ǐ' | 4, 'i' => 'ì'
  | 1, 'o' => 'ō' | 2, 'o' => 'ó' | 3, 'o' => 'ǒ' | 4, 'o' => 'ò'
  | 1, 'u' => 'ū' | 2, 'u' => 'ú' | 3, 'u' => 'ǔ' | 4, 'u' => 'ù'
  | 1, 'ü' => 'ǖ' | 2, 'ü' => 'ǘ' | 3, 'ü' => 'ǚ' | 4, 'ü' => 'ǜ'
  | _, c => c

/-- `extractTone`: inspects the last character of a syllable.  `tone :=
int(p[len(p)-1]) - 48`; if that value is outside `0..5` the syllable is
returned unchanged with tone `0`, otherwise the digit is stripped.  On the
empty string the Go code indexes `p[-1]` and panics, modelled by `none`. -/
def extractTone (p : List Char) : Option (List Char × Nat) :=
  match p.getLast? with
  | none => none
  | some c =>
    let tone : Int := (c.toNat : Int) - 48
    if tone < 0 ∨ tone > 5 then some (p, 0)
    else some (p.dropLast, tone.toNat)

/-- `strings.Contains(s, "ou")`: some adjacent pair of characters is `o`,`u`. -/
def containsOU : List Char → Bool
  | [] => false
  | [_] => false
  | c :: d :: rest => (c = 'o' && d = 'u') || containsOU (d :: rest)

/-- `strings.LastIndexAny(s, "iüou")`: index of the right-most occurrence of
one of `i`, `ü`, `o`, `u`, or `none`. -/
def lastVowelIdx : List Char → Option Nat
  | [] => none
  | c :: cs =>
    match lastVowelIdx cs with
    | some i => some (i + 1)
    | none => if c = 'i' ∨ c = 'ü' ∨ c = 'o' ∨ c = 'u' then some 0 else none

/-- Write the tone-marked vowel at one index, leaving every other character
unchanged (the rune loop of the `LastIndexAny` branch). -/
def markAt (tone : Nat) : List Char → Nat → List Char
  | [], _ => []
  | c :: cs, 0 => toneVowel tone c :: cs
  | c :: cs, i + 1 => c :: markAt tone cs i

/-- `replaceWithToneMark`: the diacritic placement rules, first match wins:
all `a`s, else all `e`s, else (if `ou` occurs) all `o`s, else the right-most
of `i ü o u`; otherwise the Go code returns the error `No tone match`,
modelled by `none`.  A tone outside `0..5` makes `toneLookupTable` fail, also
modelled by `none`. -/
def replaceWithToneMark (s : List Char) (tone : Nat) : Option (List Char) :=
  if tone > 5 then none
  else if 'a' ∈ s then some (s.map fun c => if c = 'a' then toneVowel tone 'a' else c)
  else if 'e' ∈ s then some (s.map fun c => if c = 'e' then toneVowel tone 'e' else c)
  else if containsOU s then some (s.map fun c => if c = 'o' then toneVowel tone 'o' else c)
  else
    match lastVowelIdx s with
    | some i => some (markAt tone s i)
    | none => none

/-- Outcome of the syllable loop of `convertToTones`: a panic in
`extractTone`, the `return ""` taken when `replaceWithToneMark` fails, or the
concatenated marked syllables. -/
inductive ToneOut where
  | crash : ToneOut
  | errEmpty : ToneOut
  | ok : List Char → ToneOut
  deriving DecidableEq, Repr

/-- The `for _, pySyllable := range py` loop body of `convertToTones`. -/
def convertGo : List (List Char) → ToneOut
  | [] => .ok []
  | syl :: rest =>
    match extractTone syl with
    | none => .crash
    | some (base, tone) =>
      match replaceWithToneMark base tone with
      | none => .errEmpty
      | some marked =>
        match convertGo rest with
        | .ok l => .ok (marked ++ l)
        | .errEmpty => .errEmpty
        | .crash => .crash

/-- `convertToTones`: replace `u:` by `ü`, split on single spaces, mark each
syllable; if any syllable cannot be marked the whole result is the empty
string.  `none` models a Go panic (empty syllable token). -/
def convertToTones (p : String) : Option String :=
  match convertGo (splitOnChar ' ' (replaceUU p.data)) with
  | .crash => none
  | .errEmpty => some ""
  | .ok l => some ⟨l⟩

/-- The syllable loop of `pinyinNoTones`. -/
def noTonesGo : List (List Char) → Option (List Char)
  | [] => some []
  | syl :: rest =>
    match extractTone syl with
    | none => none
    | some (base, _) => (noTonesGo rest).map (base ++ ·)

/-- `pinyinNoTones`: replace `u:` by `v`, split on single spaces, strip each
syllable's trailing tone digit, concatenate.  `none` models a Go panic. -/
def pinyinNoTones (p : String) : Option String :=
  (noTonesGo (splitOnChar ' ' (replaceUV p.data))).map (⟨·⟩)

/-! ## The entry regular expression

`reEntry` is the Go regexp

    (?P<trad>\S*?) (?P<simp>\S*?) \[(?P<pinyin>.+)\] \/(?P<defs>.+)\/

matched with `FindStringSubmatch`, i.e. leftmost-first (Perl) semantics:
the earliest start position wins, the lazy `\S*?` groups take as little as
possible, the greedy `.+` groups take as much as possible subject to the rest
of the pattern matching, and `.` matches any character except `'\n'`.
The definitions below implement exactly that search, specialised to this
pattern.  Because `\S` cannot match a space, the two lazy groups are forced:
each one is the run of non-whitespace characters up to the next space. -/

/-- The four named capture groups of `reEntry`. -/
structure Groups where
  trad : List Char
  simpl : List Char
  pin : List Char
  dfs : List Char
  deriving DecidableEq, Repr

/-- Match `(?P<g>\S*?) ` at the current position: the group is the run of
characters before the first space, which must contain no other whitespace.
Backtracking cannot lengthen the group past that space, so the split is
unique. -/
def takeTok : List Char → Option (List Char × List Char)
  | [] => none
  | c :: cs =>
    if c = ' ' then some ([], cs)
    else if isGoSpace c then none
    else
      match takeTok cs with
      | some (t, r) => some (c :: t, r)
      | none => none

/-- Match `(?P<defs>.+)\/` greedily: the group is the longest newline-free
prefix followed by a `'/'`; the returned pair is the group and the text after
that `'/'`. -/
def defSplit : List Char → Option (List Char × List Char)
  | [] => none
  | c :: cs =>
    if c = '\n' then none
    else
      match defSplit cs with
      | some (d, tl) => some (c :: d, tl)
      | none => if c = '/' then some ([], cs) else none

/-- The defs group with the `.+` one-character minimum enforced. -/
def matchDefs (l : List Char) : Option (List Char) :=
  match defSplit l with
  | some (d, _) => if d = [] then none else some d
  | none => none

/-- Try the delimiter `\] \/` plus defs group at the current position: the
current character must be `']'`, followed by `' '`, `'/'` and a matching defs
group. -/
def delimDefs : Char → List Char → Option (List Char)
  | c, c2 :: c3 :: rest =>
    if c = ']' ∧ c2 = ' ' ∧ c3 = '/' then matchDefs rest else none
  | _, _ => none

/-- Match `(?P<pinyin>.+)\] \/(?P<defs>.+)\/` greedily: among the
decompositions `l = p ++ ']' :: ' ' :: '/' :: rest` with `'\n' ∉ p` and a
matching defs group in `rest`, pick the one with the longest `p`. -/
def pinSplit : List Char → Option (List Char × List Char)
  | [] => none
  | c :: cs =>
    if c = '\n' then none
    else
      match pinSplit cs with
      | some (p, d) => some (c :: p, d)
      | none =>
        match delimDefs c cs with
        | some d => some ([], d)
        | none => none

/-- Attempt the whole pattern at the current position. -/
def matchAt (l : List Char) : Option Groups :=
  match takeTok l with
  | none => none
  | some (trad, r1) =>
    match takeTok r1 with
    | none => none
    | some (simpl, r2) =>
      match r2 with
      | c :: r3 =>
        if c = '[' then
          match pinSplit r3 with
          | some (p, d) => if p = [] then none else some ⟨trad, simpl, p, d⟩
          | none => none
        else none
      | [] => none

/-- `reEntry.FindStringSubmatch`: try every start position from the left. -/
def findMatch : List Char → Option Groups
  | [] => none
  | c :: rest =>
    match matchAt (c :: rest) with
    | some g => some g
    | none => findMatch rest

/-! ## The entry parser -/

/-- The `Entry` struct of the source (the revision with derived pinyin
forms). -/
structure Entry where
  Simplified : String
  Traditional : String
  Pinyin : String
  PinyinWithTones : String
  PinyinNoTones : String
  Definitions : List String
  deriving DecidableEq, Repr

/-- Result of `parseEntry`: a populated entry, the `Badly formatted entry`
error, or a Go panic raised while deriving the tone forms. -/
inductive ParseResult where
  | ok : Entry → ParseResult
  | badFormat : ParseResult
  | crash : ParseResult
  deriving DecidableEq, Repr

/-- `parseEntry` on a rune list: match `reEntry`, store the groups (pinyin
lower-cased, defs split on `"/"`), then derive the two tone renderings of the
stored pinyin. -/
def parseEntryL (l : List Char) : ParseResult :=
  match findMatch l with
  | none => .badFormat
  | some g =>
    let pin : String := ⟨lowerList g.pin⟩
    match convertToTones pin, pinyinNoTones pin with
    | some wt, some nt =>
      .ok ⟨⟨g.simpl⟩, ⟨g.trad⟩, pin, wt, nt, (splitOnChar '/' g.dfs).map (⟨·⟩)⟩
    | _, _ => .crash

/-- `parseEntry` on a string. -/
def parseEntry (s : String) : ParseResult := parseEntryL s.data

/-! ## The tokenizer -/

/-- Classification performed by the split function of `New`: a token is a
comment exactly when the first byte in the buffer, i.e. the first character
of the line, is `'#'`. -/
def classifyIsComment (l : List Char) : Bool :=
  match l with
  | c :: _ => c = '#'
  | [] => false

/-- Tokenizer state: the lines not yet consumed and the current entry
(`c.entry`, `nil` before the first successful parse). -/
structure CEDictState where
  lines : List (List Char)
  entry : Option Entry
  deriving DecidableEq, Repr

/-- Result of one `NextEntry` call.  `noMore` is the source's `NoMoreEntries`
value and `readFailure` the propagation of a reader error via `c.Err()`;
both returns exist in the source text but are unreachable once the stream is
exhausted, because the scanner's final empty-slice call into the split
function panics (`data[0]` on an empty slice) before `Scan` can return
`false`.  `crash` models that panic (and panics raised inside
`parseEntry`). -/
inductive NextResult where
  | ok : NextResult
  | badFormat : NextResult
  | noMore : NextResult
  | readFailure : NextResult
  | crash : NextResult
  deriving DecidableEq, Repr

/-- The `for c.Scan()` loop of `NextEntry`: a blank line produces a nil token
that the scanner suppresses, a comment token is skipped, and the first entry
token is parsed.  On a parse error the error is returned and `c.entry` is
left unchanged.  At exhaustion the scanner hands the split function an empty
slice and `data[0]` panics, so the exhausted state yields `.crash`, never the
source's `return NoMoreEntries`. -/
def nextEntryGo : List (List Char) → Option Entry → NextResult × CEDictState
  | [], cur => (.crash, ⟨[], cur⟩)
  | l :: rest, cur =>
    if l = [] then nextEntryGo rest cur
    else if classifyIsComment l then nextEntryGo rest cur
    else
      match parseEntryL l with
      | .ok e => (.ok, ⟨rest, some e⟩)
      | .badFormat => (.badFormat, ⟨rest, cur⟩)
      | .crash => (.crash, ⟨rest, cur⟩)

/-- `NextEntry` as a state transition. -/
def nextEntry (s : CEDictState) : NextResult × CEDictState :=
  nextEntryGo s.lines s.entry

/-- The lines of a byte stream: split on `'\n'`; a final line without a
terminator is still produced (end-of-stream flush); a trailing terminator
produces no extra line. -/
def linesOf (s : String) : List (List Char) :=
  if s.data = [] then []
  else if s.data.getLast? = some '\n' then (splitOnChar '\n' s.data).dropLast
  else splitOnChar '\n' s.data

/-- The entries a stream's lines should yield, in source order: skip comment
lines, take every line `parseEntry` accepts. -/
def entriesOf : List (List Char) → List Entry
  | [] => []
  | l :: rest =>
    if classifyIsComment l then entriesOf rest
    else
      match parseEntryL l with
      | .ok e => e :: entriesOf rest
      | _ => entriesOf rest

/-- `nextEntry` strictly consumes lines when it succeeds. -/
theorem nextEntryGo_ok_length (lines : List (List Char)) :
    ∀ {cur : Option Entry} {res : NextResult} {s' : CEDictState},
    nextEntryGo lines cur = (res, s') → res = .ok →
    s'.lines.length < lines.length := by
  induction lines with
  | nil =>
    intro cur res s' h hres
    simp only [nextEntryGo] at h
    cases h
    simp at hres
  | cons l rest ih =>
    intro cur res s' h hres
    simp only [nextEntryGo] at h
    by_cases hl : l = []
    · rw [if_pos hl] at h
      have := ih h hres
      simp only [List.length_cons]
      omega
    · rw [if_neg hl] at h
      by_cases hc : classifyIsComment l
      · rw [if_pos hc] at h
        have := ih h hres
        simp only [List.length_cons]
        omega
      · simp only [hc, if_neg, Bool.false_eq_true, if_false] at h
        cases hp : parseEntryL l <;> rw [hp] at h <;> cases h
        · simp
        · simp at hres
        · simp at hres

/-- Drive the tokenizer to exhaustion, collecting the entries produced and
the terminal (non-`ok`) result. -/
def drive (s : CEDictState) : List Entry × NextResult :=
  match h : nextEntry s with
  | (.ok, s') =>
    match s'.entry with
    | some e =>
      let r := drive s'
      (e :: r.1, r.2)
    | none => ([], .crash)
  | (.badFormat, _) => ([], .badFormat)
  | (.noMore, _) => ([], .noMore)
  | (.readFailure, _) => ([], .readFailure)
  | (.crash, _) => ([], .crash)
termination_by s.lines.length
decreasing_by exact nextEntryGo_ok_length s.lines h rfl

/-! ## Spec-side reference definitions

These follow the words of the specification (first `[`, next `]`, first `/`
after, final `/`, entry shape) and are compared against the behaviour of the
source-derived definitions above. -/

/-- Split at the first occurrence of a character: the text before it and the
text after it. -/
def splitAtFirst (sep : Char) : List Char → Option (List Char × List Char)
  | [] => none
  | c :: cs =>
    if c = sep then some ([], cs)
    else
      match splitAtFirst sep cs with
      | some (a, b) => some (c :: a, b)
      | none => none

/-- Split at the last occurrence of a character. -/
def splitAtLast (sep : Char) : List Char → Option (List Char × List Char)
  | [] => none
  | c :: cs =>
    match splitAtLast sep cs with
    | some (a, b) => some (c :: a, b)
    | none => if c = sep then some ([], cs) else none

/-- Modelled from the spec: the text between the first `[` of a line and the
next `]` after it. -/
def betweenBrackets (l : List Char) : Option (List Char) :=
  match splitAtFirst '[' l with
  | none => none
  | some (_, rest) =>
    match splitAtFirst ']' rest with
    | none => none
    | some (pin, _) => some pin

/-- Modelled from the spec: the text between the first `/` after the first
bracketed segment and the final `/` of the line. -/
def defsText (l : List Char) : Option (List Char) :=
  match splitAtFirst '[' l with
  | none => none
  | some (_, rest) =>
    match splitAtFirst ']' rest with
    | none => none
    | some (_, rest2) =>
      match splitAtFirst '/' rest2 with
      | none => none
      | some (_, rest3) =>
        match splitAtLast '/' rest3 with
        | none => none
        | some (ds, _) => some ds

/-- A line has the shape `reEntry` can match somewhere: after an arbitrary
prefix, two whitespace-free tokens separated and followed by single spaces,
then a bracketed non-empty newline-free pinyin segment, then ` /`, a
non-empty newline-free defs segment, and a closing `/`. -/
def EntryShape (s : String) : Prop :=
  ∃ pre trad simpl pinyin ds tail : List Char,
    s.data = pre ++ trad ++ ' ' :: simpl ++ ' ' :: '[' ::
      pinyin ++ ']' :: ' ' :: '/' :: ds ++ '/' :: tail ∧
    (∀ c ∈ trad, isGoSpace c = false) ∧
    (∀ c ∈ simpl, isGoSpace c = false) ∧
    pinyin ≠ [] ∧ '\n' ∉ pinyin ∧ ds ≠ [] ∧ '\n' ∉ ds

/-- What stripping one trailing tone digit does to a non-empty syllable
token: a last character in `'0'..'5'` is dropped, anything else is kept. -/
def dropToneDigit (t : List Char) : List Char :=
  match t.getLast? with
  | none => t
  | some c => if 48 ≤ c.toNat ∧ c.toNat ≤ 53 then t.dropLast else t

/-- The six pinyin vowel letters the renderer can mark. -/
def pinyinVowels : List Char := ['a', 'e', 'i', 'o', 'u', 'ü']

/-- A sample entry used to instantiate frame-effect statements. -/
def sampleEntry : Entry :=
  ⟨"一层", "一層", "yi1 ceng2", "yīcéng", "yiceng", ["layer"]⟩

/-! ## Helper lemmas: tone rendering -/

theorem toneVowel_zero (c : Char) : toneVowel 0 c = c := rfl

theorem toneVowel_five (c : Char) : toneVowel 5 c = c := rfl

theorem markAt_eq_self {tone : Nat} (htone : tone = 0 ∨ tone = 5) :
    ∀ (l : List Char) (i : Nat), markAt tone l i = l := by
  intro l
  induction l with
  | nil => intro i; rfl
  | cons c cs ih =>
    intro i
    cases i with
    | zero =>
      rcases htone with h | h <;> subst h <;>
        simp [markAt, toneVowel_zero, toneVowel_five]
    | succ j => simp [markAt, ih]

theorem containsOU_mem : ∀ {l : List Char}, containsOU l = true → 'o' ∈ l := by
  intro l
  induction l with
  | nil => intro h; simp [containsOU] at h
  | cons c cs ih =>
    intro h
    cases cs with
    | nil => simp [containsOU] at h
    | cons d rest =>
      simp only [containsOU, Bool.or_eq_true, Bool.and_eq_true, decide_eq_true_eq] at h
      rcases h with ⟨rfl, _⟩ | h
      · exact List.mem_cons_self _ _
      · exact List.mem_cons_of_mem _ (ih h)

theorem lastVowelIdx_eq_none :
    ∀ {l : List Char}, (∀ c ∈ l, ¬(c = 'i' ∨ c = 'ü' ∨ c = 'o' ∨ c = 'u')) →
    lastVowelIdx l = none := by
  intro l
  induction l with
  | nil => intro _; rfl
  | cons c cs ih =>
    intro h
    have hcs := ih fun c' hc' => h c' (List.mem_cons_of_mem _ hc')
    have hc := h c (List.mem_cons_self _ _)
    simp only [lastVowelIdx, hcs]
    exact if_neg hc

theorem lastVowelIdx_isSome :
    ∀ {l : List Char} {c : Char}, c ∈ l →
    (c = 'i' ∨ c = 'ü' ∨ c = 'o' ∨ c = 'u') → (lastVowelIdx l).isSome := by
  intro l
  induction l with
  | nil => intro c hm _; simp at hm
  | cons d ds ih =>
    intro c hm hv
    simp only [lastVowelIdx]
    cases hlv : lastVowelIdx ds with
    | some i => simp
    | none =>
      rcases List.mem_cons.mp hm with rfl | hm'
      · rw [if_pos hv]; simp
      · have := ih hm' hv
        rw [hlv] at this
        simp at this

theorem replaceWithToneMark_none {b : List Char} {tone : Nat}
    (h : ∀ c ∈ b, c ∉ pinyinVowels) : replaceWithToneMark b tone = none := by
  have ha : 'a' ∉ b := fun hm => h _ hm (by simp [pinyinVowels])
  have he : 'e' ∉ b := fun hm => h _ hm (by simp [pinyinVowels])
  have ho : containsOU b = false := by
    cases hou : containsOU b
    · rfl
    · exact (h _ (containsOU_mem hou) (by simp [pinyinVowels])).elim
  have hlv : lastVowelIdx b = none := by
    refine lastVowelIdx_eq_none fun c hc hor => h c hc ?_
    rcases hor with rfl | rfl | rfl | rfl <;> simp [pinyinVowels]
  by_cases ht : tone > 5
  · simp [replaceWithToneMark, ht]
  · simp [replaceWithToneMark, ht, ha, he, ho, hlv]

theorem replaceWithToneMark_isSome {b : List Char} {tone : Nat} (ht : tone ≤ 5)
    (h : ∃ c ∈ b, c ∈ pinyinVowels) : (replaceWithToneMark b tone).isSome := by
  have ht' : ¬tone > 5 := by omega
  by_cases ha : 'a' ∈ b
  · simp [replaceWithToneMark, ht', ha]
  · by_cases he : 'e' ∈ b
    · simp [replaceWithToneMark, ht', ha, he]
    · by_cases ho : containsOU b
      · simp [replaceWithToneMark, ht', ha, he, ho]
      · obtain ⟨c, hc, hcv⟩ := h
        have hv : c = 'i' ∨ c = 'ü' ∨ c = 'o' ∨ c = 'u' := by
          simp only [pinyinVowels, List.mem_cons, List.not_mem_nil, or_false] at hcv
          rcases hcv with rfl | rfl | rfl | rfl | rfl | rfl
          · exact absurd hc ha
          · exact absurd hc he
          · exact Or.inl rfl
          · exact Or.inr (Or.inr (Or.inl rfl))
          · exact Or.inr (Or.inr (Or.inr rfl))
          · exact Or.inr (Or.inl rfl)
        obtain ⟨i, hi⟩ := Option.isSome_iff_exists.mp (lastVowelIdx_isSome hc hv)
        simp [replaceWithToneMark, ht', ha, he, ho, hi]

theorem extractTone_isSome {t : List Char} (h : t ≠ []) : (extractTone t).isSome := by
  rcases List.eq_nil_or_concat t with rfl | ⟨L, c, rfl⟩
  · exact absurd rfl h
  · rw [List.concat_eq_append]
    unfold extractTone
    rw [List.getLast?_concat]
    dsimp only
    split <;> simp

theorem extractTone_passthrough (t : List Char) (c : Char)
    (h : ¬(48 ≤ c.toNat ∧ c.toNat ≤ 53)) :
    extractTone (t ++ [c]) = some (t ++ [c], 0) := by
  unfold extractTone
  rw [List.getLast?_concat]
  have h2 : ((c.toNat : Int) - 48 < 0 ∨ (c.toNat : Int) - 48 > 5) := by omega
  dsimp only
  rw [if_pos h2]

theorem extractTone_strip (t : List Char) (c : Char)
    (h : 48 ≤ c.toNat ∧ c.toNat ≤ 53) :
    extractTone (t ++ [c]) = some (t, c.toNat - 48) := by
  unfold extractTone
  rw [List.getLast?_concat]
  have h2 : ¬((c.toNat : Int) - 48 < 0 ∨ (c.toNat : Int) - 48 > 5) := by omega
  dsimp only
  rw [if_neg h2, List.dropLast_concat]
  have h3 : ((c.toNat : Int) - 48).toNat = c.toNat - 48 := by omega
  rw [h3]

theorem dropToneDigit_strip (L : List Char) (c : Char)
    (hr : 48 ≤ c.toNat ∧ c.toNat ≤ 53) : dropToneDigit (L ++ [c]) = L := by
  unfold dropToneDigit
  rw [List.getLast?_concat]
  dsimp only
  rw [if_pos hr, List.dropLast_concat]

theorem dropToneDigit_keep (L : List Char) (c : Char)
    (hr : ¬(48 ≤ c.toNat ∧ c.toNat ≤ 53)) : dropToneDigit (L ++ [c]) = L ++ [c] := by
  unfold dropToneDigit
  rw [List.getLast?_concat]
  dsimp only
  rw [if_neg hr]

theorem extractTone_base {t : List Char} (h : t ≠ []) :
    ∃ tone, extractTone t = some (dropToneDigit t, tone) ∧ tone ≤ 5 := by
  rcases List.eq_nil_or_concat t with rfl | ⟨L, c, rfl⟩
  · exact absurd rfl h
  · rw [List.concat_eq_append]
    by_cases hr : 48 ≤ c.toNat ∧ c.toNat ≤ 53
    · exact ⟨c.toNat - 48, by rw [extractTone_strip _ _ hr, dropToneDigit_strip _ _ hr],
        by omega⟩
    · exact ⟨0, by rw [extractTone_passthrough _ _ hr, dropToneDigit_keep _ _ hr],
        by omega⟩

theorem noTonesGo_eq : ∀ {ts : List (List Char)}, [] ∉ ts →
    noTonesGo ts = some (ts.map dropToneDigit).flatten := by
  intro ts
  induction ts with
  | nil => intro _; rfl
  | cons syl rest ih =>
    intro h
    have hsyl : syl ≠ [] := fun e => h (e ▸ List.mem_cons_self _ _)
    obtain ⟨tone, hbt, -⟩ := extractTone_base hsyl
    have hrest := ih fun hm => h (List.mem_cons_of_mem _ hm)
    simp [noTonesGo, hbt, hrest]

theorem convertGo_ne_crash : ∀ {ts : List (List Char)}, [] ∉ ts →
    convertGo ts ≠ .crash := by
  intro ts
  induction ts with
  | nil => intro _ h; simp [convertGo] at h
  | cons syl rest ih =>
    intro hne h
    have hsyl : syl ≠ [] := fun e => hne (e ▸ List.mem_cons_self _ _)
    obtain ⟨tone, hbt, -⟩ := extractTone_base hsyl
    have hrest := ih fun hm => hne (List.mem_cons_of_mem _ hm)
    rw [convertGo, hbt] at h
    dsimp only at h
    cases hm : replaceWithToneMark (dropToneDigit syl) tone with
    | none => rw [hm] at h; cases h
    | some marked =>
      rw [hm] at h
      cases hcg : convertGo rest with
      | ok l => rw [hcg] at h; cases h
      | errEmpty => rw [hcg] at h; cases h
      | crash => exact hrest hcg

theorem convertGo_errEmpty :
    ∀ {ts : List (List Char)}, [] ∉ ts →
    (∃ t ∈ ts, ∀ c ∈ dropToneDigit t, c ∉ pinyinVowels) →
    convertGo ts = .errEmpty := by
  intro ts
  induction ts with
  | nil => intro _ h; simp at h
  | cons syl rest ih =>
    intro hne hex
    have hsyl : syl ≠ [] := fun e => hne (e ▸ List.mem_cons_self _ _)
    obtain ⟨tone, hbt, -⟩ := extractTone_base hsyl
    rw [convertGo, hbt]
    dsimp only
    by_cases hhead : ∀ c ∈ dropToneDigit syl, c ∉ pinyinVowels
    · rw [replaceWithToneMark_none hhead]
    · cases hm : replaceWithToneMark (dropToneDigit syl) tone with
      | none => rfl
      | some marked =>
        have hex' : ∃ t ∈ rest, ∀ c ∈ dropToneDigit t, c ∉ pinyinVowels := by
          rcases hex with ⟨t, hm', hts⟩
          rcases List.mem_cons.mp hm' with rfl | hm''
          · exact absurd hts hhead
          · exact ⟨t, hm'', hts⟩
        rw [ih (fun hm'' => hne (List.mem_cons_of_mem _ hm'')) hex']

theorem convertToTones_isSome {p : String}
    (h : [] ∉ splitOnChar ' ' (replaceUU p.data)) :
    ∃ r, convertToTones p = some r := by
  unfold convertToTones
  cases hcg : convertGo (splitOnChar ' ' (replaceUU p.data)) with
  | crash => exact absurd hcg (convertGo_ne_crash h)
  | errEmpty => exact ⟨"", rfl⟩
  | ok l => exact ⟨⟨l⟩, rfl⟩

theorem pinyinNoTones_isSome {p : String}
    (h : [] ∉ splitOnChar ' ' (replaceUV p.data)) :
    ∃ r, pinyinNoTones p = some r := by
  unfold pinyinNoTones
  rw [noTonesGo_eq h]
  exact ⟨_, rfl⟩

/-! ## Helper lemmas: the matcher -/

theorem takeTok_cons (c : Char) (cs : List Char) :
    takeTok (c :: cs) =
      if c = ' ' then some ([], cs)
      else if isGoSpace c then none
      else
        match takeTok cs with
        | some (t, r) => some (c :: t, r)
        | none => none := rfl

theorem defSplit_cons (c : Char) (cs : List Char) :
    defSplit (c :: cs) =
      if c = '\n' then none
      else
        match defSplit cs with
        | some (d, tl) => some (c :: d, tl)
        | none => if c = '/' then some ([], cs) else none := rfl

theorem pinSplit_cons (c : Char) (cs : List Char) :
    pinSplit (c :: cs) =
      if c = '\n' then none
      else
        match pinSplit cs with
        | some (p, d) => some (c :: p, d)
        | none =>
          match delimDefs c cs with
          | some d => some ([], d)
          | none => none := rfl

theorem splitOnChar_cons (sep c : Char) (cs : List Char) :
    splitOnChar sep (c :: cs) =
      if c = sep then [] :: splitOnChar sep cs
      else
        match splitOnChar sep cs with
        | t :: ts => (c :: t) :: ts
        | [] => [[c]] := rfl

theorem takeTok_build :
    ∀ {t : List Char} (r : List Char), (∀ c ∈ t, isGoSpace c = false) →
    takeTok (t ++ ' ' :: r) = some (t, r) := by
  intro t
  induction t with
  | nil => intro r _; rfl
  | cons c cs ih =>
    intro r h
    have hc := h c (List.mem_cons_self _ _)
    have hcs := ih r fun c' hc' => h c' (List.mem_cons_of_mem _ hc')
    have hc1 : c ≠ ' ' := by intro e; subst e; simp [isGoSpace] at hc
    rw [List.cons_append, takeTok_cons, if_neg hc1, if_neg (by simp [hc]), hcs]

theorem takeTok_sound :
    ∀ {l t r : List Char}, takeTok l = some (t, r) →
    l = t ++ ' ' :: r ∧ ∀ c ∈ t, isGoSpace c = false := by
  intro l
  induction l with
  | nil => intro t r h; simp [takeTok] at h
  | cons c cs ih =>
    intro t r h
    simp only [takeTok] at h
    by_cases hc : c = ' '
    · rw [if_pos hc] at h
      cases h
      subst hc
      exact ⟨rfl, by simp⟩
    · rw [if_neg hc] at h
      by_cases hsp : isGoSpace c = true
      · rw [if_pos hsp] at h; cases h
      · rw [if_neg hsp] at h
        cases htk : takeTok cs with
        | none => rw [htk] at h; cases h
        | some tr =>
          obtain ⟨t', r'⟩ := tr
          rw [htk] at h
          dsimp only at h
          cases h
          obtain ⟨hl, hall⟩ := ih htk
          refine ⟨by rw [hl]; rfl, fun c' hc' => ?_⟩
          rcases List.mem_cons.mp hc' with rfl | hm
          · exact Bool.not_eq_true _ ▸ hsp
          · exact hall c' hm

theorem defSplit_concat :
    ∀ {ds : List Char}, '\n' ∉ ds → defSplit (ds ++ ['/']) = some (ds, []) := by
  intro ds
  induction ds with
  | nil => intro _; rfl
  | cons c cs ih =>
    intro h
    have hc : c ≠ '\n' := fun e => h (e ▸ List.mem_cons_self _ _)
    have hcs := ih fun hm => h (List.mem_cons_of_mem _ hm)
    rw [List.cons_append, defSplit_cons, if_neg hc, hcs]

theorem defSplit_ge :
    ∀ {ds : List Char} (tail : List Char), '\n' ∉ ds →
    ∃ d tl, defSplit (ds ++ '/' :: tail) = some (d, tl) ∧ ds.length ≤ d.length := by
  intro ds
  induction ds with
  | nil =>
    intro tail _
    cases hdt : defSplit tail with
    | some dtl =>
      refine ⟨'/' :: dtl.1, dtl.2, ?_, by simp⟩
      rw [List.nil_append, defSplit_cons, if_neg (by decide : ¬('/' : Char) = '\n'),
        hdt]
    | none =>
      refine ⟨[], tail, ?_, by simp⟩
      rw [List.nil_append, defSplit_cons, if_neg (by decide : ¬('/' : Char) = '\n'),
        hdt]
      rfl
  | cons c cs ih =>
    intro tail h
    have hc : c ≠ '\n' := fun e => h (e ▸ List.mem_cons_self _ _)
    obtain ⟨d, tl, hd, hlen⟩ := ih tail fun hm => h (List.mem_cons_of_mem _ hm)
    refine ⟨c :: d, tl, ?_, by simp only [List.length_cons]; omega⟩
    rw [List.cons_append, defSplit_cons, if_neg hc, hd]

theorem defSplit_sound :
    ∀ {l d tl : List Char}, defSplit l = some (d, tl) →
    l = d ++ '/' :: tl ∧ '\n' ∉ d := by
  intro l
  induction l with
  | nil => intro d tl h; simp [defSplit] at h
  | cons c cs ih =>
    intro d tl h
    rw [defSplit_cons] at h
    by_cases hc : c = '\n'
    · rw [if_pos hc] at h; cases h
    · rw [if_neg hc] at h
      cases hcs : defSplit cs with
      | some dtl =>
        obtain ⟨d', tl'⟩ := dtl
        rw [hcs] at h
        dsimp only at h
        cases h
        obtain ⟨hl, hnin⟩ := ih hcs
        refine ⟨by rw [hl]; rfl, fun hm => ?_⟩
        rcases List.mem_cons.mp hm with e | hm'
        · exact hc e.symm
        · exact hnin hm'
      | none =>
        rw [hcs] at h
        dsimp only at h
        by_cases hsl : c = '/'
        · rw [if_pos hsl] at h
          cases h
          subst hsl
          exact ⟨rfl, by simp⟩
        · rw [if_neg hsl] at h; cases h

theorem matchDefs_nil : matchDefs [] = none := rfl

theorem matchDefs_concat {ds : List Char} (h : '\n' ∉ ds) (hne : ds ≠ []) :
    matchDefs (ds ++ ['/']) = some ds := by
  unfold matchDefs
  rw [defSplit_concat h]
  dsimp only
  rw [if_neg hne]

theorem matchDefs_exists {ds : List Char} (tail : List Char) (h : '\n' ∉ ds)
    (hne : ds ≠ []) : ∃ d, matchDefs (ds ++ '/' :: tail) = some d := by
  obtain ⟨d, tl, hd, hlen⟩ := defSplit_ge tail h
  have hdne : d ≠ [] := by
    intro e
    subst e
    have : ds.length = 0 := by simpa using hlen
    exact hne (List.length_eq_zero.mp this)
  refine ⟨d, ?_⟩
  unfold matchDefs
  rw [hd]
  dsimp only
  rw [if_neg hdne]

theorem matchDefs_sound {l d : List Char} (h : matchDefs l = some d) :
    d ≠ [] ∧ '\n' ∉ d ∧ ∃ tl, l = d ++ '/' :: tl := by
  unfold matchDefs at h
  cases hds : defSplit l with
  | none => rw [hds] at h; cases h
  | some dtl =>
    obtain ⟨d', tl⟩ := dtl
    rw [hds] at h
    dsimp only at h
    by_cases hne : d' = []
    · rw [if_pos hne] at h; cases h
    · rw [if_neg hne] at h
      cases h
      obtain ⟨hl, hnin⟩ := defSplit_sound hds
      exact ⟨hne, hnin, tl, hl⟩

theorem delimDefs_build (rest : List Char) :
    delimDefs ']' (' ' :: '/' :: rest) = matchDefs rest := by
  simp [delimDefs]

theorem delimDefs_sound :
    ∀ {c : Char} {cs d : List Char}, delimDefs c cs = some d →
    c = ']' ∧ ∃ rest, cs = ' ' :: '/' :: rest ∧ matchDefs rest = some d := by
  intro c cs d h
  rcases cs with _ | ⟨c2, _ | ⟨c3, rest⟩⟩
  · simp [delimDefs] at h
  · simp [delimDefs] at h
  · have he : delimDefs c (c2 :: c3 :: rest) =
        if c = ']' ∧ c2 = ' ' ∧ c3 = '/' then matchDefs rest else none := rfl
    rw [he] at h
    by_cases hcond : c = ']' ∧ c2 = ' ' ∧ c3 = '/'
    · rw [if_pos hcond] at h
      obtain ⟨rfl, rfl, rfl⟩ := hcond
      exact ⟨rfl, rest, rfl, h⟩
    · rw [if_neg hcond] at h; cases h

theorem delimDefs_none {c : Char} {cs : List Char}
    (h : ∀ r, c :: cs = ']' :: ' ' :: '/' :: r → matchDefs r = none) :
    delimDefs c cs = none := by
  cases hdd : delimDefs c cs with
  | none => rfl
  | some d =>
    obtain ⟨rfl, rest, rfl, hmd⟩ := delimDefs_sound hdd
    rw [h rest rfl] at hmd
    cases hmd

theorem pinSplit_none :
    ∀ {l : List Char},
    (∀ p r, l = p ++ ']' :: ' ' :: '/' :: r → matchDefs r = none) →
    pinSplit l = none := by
  intro l
  induction l with
  | nil => intro _; rfl
  | cons c cs ih =>
    intro h
    have hcs := ih fun p r hpr => h (c :: p) r (by rw [hpr]; rfl)
    have hdd := delimDefs_none fun r hr => h [] r (by rw [hr]; rfl)
    rw [pinSplit_cons, hcs, hdd]
    by_cases hnl : c = '\n'
    · rw [if_pos hnl]
    · rw [if_neg hnl]

theorem pinSplit_build :
    ∀ {py rest d : List Char}, '\n' ∉ py →
    matchDefs rest = some d → pinSplit (' ' :: '/' :: rest) = none →
    pinSplit (py ++ ']' :: ' ' :: '/' :: rest) = some (py, d) := by
  intro py
  induction py with
  | nil =>
    intro rest d _ hmd htail
    rw [List.nil_append, pinSplit_cons, if_neg (by decide : ¬(']' : Char) = '\n'),
      htail, delimDefs_build, hmd]
  | cons c py' ih =>
    intro rest d hnl hmd htail
    have hc : c ≠ '\n' := fun e => hnl (e ▸ List.mem_cons_self _ _)
    have hrec := ih (fun hm => hnl (List.mem_cons_of_mem _ hm)) hmd htail
    rw [List.cons_append, pinSplit_cons, if_neg hc, hrec]

theorem pinSplit_exists :
    ∀ {p : List Char} {r d : List Char}, '\n' ∉ p → matchDefs r = some d →
    ∃ p' d', pinSplit (p ++ ']' :: ' ' :: '/' :: r) = some (p', d') ∧
      p.length ≤ p'.length := by
  intro p
  induction p with
  | nil =>
    intro r d _ hmd
    cases hrec : pinSplit (' ' :: '/' :: r) with
    | some pd =>
      refine ⟨']' :: pd.1, pd.2, ?_, by simp⟩
      rw [List.nil_append, pinSplit_cons, if_neg (by decide : ¬(']' : Char) = '\n'),
        hrec]
    | none =>
      refine ⟨[], d, ?_, by simp⟩
      rw [List.nil_append, pinSplit_cons, if_neg (by decide : ¬(']' : Char) = '\n'),
        hrec, delimDefs_build, hmd]
  | cons c p' ih =>
    intro r d hnl hmd
    have hc : c ≠ '\n' := fun e => hnl (e ▸ List.mem_cons_self _ _)
    obtain ⟨p'', d'', hps, hlen⟩ := ih (fun hm => hnl (List.mem_cons_of_mem _ hm)) hmd
    refine ⟨c :: p'', d'', ?_, by simp only [List.length_cons]; omega⟩
    rw [List.cons_append, pinSplit_cons, if_neg hc, hps]

theorem pinSplit_sound :
    ∀ {l p d : List Char}, pinSplit l = some (p, d) →
    '\n' ∉ p ∧ ∃ rest, l = p ++ ']' :: ' ' :: '/' :: rest ∧ matchDefs rest = some d := by
  intro l
  induction l with
  | nil => intro p d h; simp [pinSplit] at h
  | cons c cs ih =>
    intro p d h
    rw [pinSplit_cons] at h
    by_cases hnl : c = '\n'
    · rw [if_pos hnl] at h; cases h
    · rw [if_neg hnl] at h
      cases hrec : pinSplit cs with
      | some pd =>
        obtain ⟨p', d'⟩ := pd
        rw [hrec] at h
        dsimp only at h
        cases h
        obtain ⟨hnl', rest, hl, hmd⟩ := ih hrec
        refine ⟨fun hm => ?_, rest, by rw [hl]; rfl, hmd⟩
        rcases List.mem_cons.mp hm with e | hm'
        · exact hnl e.symm
        · exact hnl' hm'
      | none =>
        rw [hrec] at h
        cases hdd : delimDefs c cs with
        | none => rw [hdd] at h; cases h
        | some d0 =>
          rw [hdd] at h
          dsimp only at h
          cases h
          obtain ⟨rfl, rest, rfl, hmd⟩ := delimDefs_sound hdd
          exact ⟨by simp, rest, rfl, hmd⟩

theorem matchAt_nil : matchAt [] = none := rfl

theorem findMatch_of_matchAt {l : List Char} {g : Groups} (h : matchAt l = some g) :
    findMatch l = some g := by
  cases l with
  | nil => rw [matchAt_nil] at h; cases h
  | cons c cs => simp only [findMatch, h]

theorem findMatch_isSome_suffix :
    ∀ (pre : List Char) {suf : List Char} {g : Groups}, matchAt suf = some g →
    (findMatch (pre ++ suf)).isSome := by
  intro pre
  induction pre with
  | nil =>
    intro suf g h
    simp [findMatch_of_matchAt h]
  | cons c pre' ih =>
    intro suf g h
    simp only [List.cons_append, findMatch]
    cases hma : matchAt (c :: (pre' ++ suf)) with
    | some g' => simp
    | none => exact ih h

theorem head2_no_delim {ds : List Char}
    (hnox : ¬ ∃ a b, ds = a ++ ']' :: ' ' :: '/' :: b) :
    ∀ p r, (' ' :: '/' :: (ds ++ ['/'])) = p ++ ']' :: ' ' :: '/' :: r →
    matchDefs r = none := by
  intro p r heq
  rcases List.eq_nil_or_concat r with rfl | ⟨r0, x, rfl⟩
  · exact matchDefs_nil
  · exfalso
    rw [List.concat_eq_append] at heq
    have heq' : (' ' :: '/' :: ds) ++ ['/'] = (p ++ ']' :: ' ' :: '/' :: r0) ++ [x] := by
      simpa using heq
    obtain ⟨heq2, -⟩ := List.append_inj' heq' rfl
    match p, heq2 with
    | [], h2 => exact absurd (List.head_eq_of_cons_eq h2.symm) (by decide)
    | [y], h2 =>
      obtain ⟨-, h3⟩ := List.cons_eq_cons.mp h2
      exact absurd (List.head_eq_of_cons_eq h3.symm) (by decide)
    | y :: z :: p'', h2 =>
      obtain ⟨-, h3⟩ := List.cons_eq_cons.mp h2
      obtain ⟨-, h4⟩ := List.cons_eq_cons.mp h3
      exact hnox ⟨p'', r0, h4⟩

theorem matchAt_build {trad simpl pinyin ds : List Char}
    (htr : ∀ c ∈ trad, isGoSpace c = false)
    (hsi : ∀ c ∈ simpl, isGoSpace c = false)
    (hpne : pinyin ≠ []) (hpnl : '\n' ∉ pinyin)
    (hdsnl : '\n' ∉ ds) (hdsne : ds ≠ [])
    (hnox : ¬ ∃ a b, ds = a ++ ']' :: ' ' :: '/' :: b) :
    matchAt (trad ++ ' ' ::
        (simpl ++ ' ' :: '[' :: (pinyin ++ ']' :: ' ' :: '/' :: (ds ++ ['/'])))) =
      some ⟨trad, simpl, pinyin, ds⟩ := by
  have hps : pinSplit (pinyin ++ ']' :: ' ' :: '/' :: (ds ++ ['/'])) =
      some (pinyin, ds) :=
    pinSplit_build hpnl (matchDefs_concat hdsnl hdsne)
      (pinSplit_none (head2_no_delim hnox))
  unfold matchAt
  rw [takeTok_build _ htr]
  dsimp only
  rw [takeTok_build _ hsi]
  dsimp only
  rw [if_pos rfl, hps]
  dsimp only
  rw [if_neg hpne]

theorem splitOnChar_not_mem {sep : Char} :
    ∀ {l : List Char}, sep ∉ l → splitOnChar sep l = [l] := by
  intro l
  induction l with
  | nil => intro _; rfl
  | cons c cs ih =>
    intro h
    have hc : c ≠ sep := fun e => h (e ▸ List.mem_cons_self _ _)
    have hcs := ih fun hm => h (List.mem_cons_of_mem _ hm)
    rw [splitOnChar_cons, if_neg hc, hcs]

theorem splitOnChar_append {sep : Char} :
    ∀ {d : List Char} (t : List Char), sep ∉ d →
    splitOnChar sep (d ++ sep :: t) = d :: splitOnChar sep t := by
  intro d
  induction d with
  | nil =>
    intro t _
    rw [List.nil_append, splitOnChar_cons, if_pos rfl]
  | cons c cs ih =>
    intro t h
    have hc : c ≠ sep := fun e => h (e ▸ List.mem_cons_self _ _)
    have hcs := ih t fun hm => h (List.mem_cons_of_mem _ hm)
    rw [List.cons_append, splitOnChar_cons, if_neg hc, hcs]

theorem splitSlash_join :
    ∀ {dss : List (List Char)}, dss ≠ [] → (∀ d ∈ dss, '/' ∉ d) →
    splitOnChar '/' (joinSlash dss) = dss := by
  intro dss
  induction dss with
  | nil => intro h _; exact absurd rfl h
  | cons d rest ih =>
    intro _ h
    cases rest with
    | nil =>
      simp only [joinSlash]
      exact splitOnChar_not_mem (h d (List.mem_cons_self _ _))
    | cons d2 rest2 =>
      simp only [joinSlash]
      rw [splitOnChar_append _ (h d (List.mem_cons_self _ _)),
        ih (by simp) fun d' hd' => h d' (List.mem_cons_of_mem _ hd')]

theorem joinSlash_ne_nil :
    ∀ {dss : List (List Char)}, dss ≠ [] → (∀ d ∈ dss, d ≠ []) →
    joinSlash dss ≠ [] := by
  intro dss
  induction dss with
  | nil => intro h _; exact absurd rfl h
  | cons d rest _ =>
    intro _ h
    cases rest with
    | nil => exact h d (List.mem_cons_self _ _)
    | cons d2 rest2 =>
      simp only [joinSlash]
      cases hd : d with
      | nil => exact absurd rfl (hd ▸ h d (List.mem_cons_self _ _))
      | cons x xs => simp

theorem joinSlash_not_mem {c : Char} (hc : c ≠ '/') :
    ∀ {dss : List (List Char)}, (∀ d ∈ dss, c ∉ d) → c ∉ joinSlash dss := by
  intro dss
  induction dss with
  | nil => intro _; simp [joinSlash]
  | cons d rest ih =>
    intro h
    cases rest with
    | nil => exact h d (List.mem_cons_self _ _)
    | cons d2 rest2 =>
      simp only [joinSlash, List.mem_append, List.mem_cons]
      push_neg
      exact ⟨h d (List.mem_cons_self _ _), hc,
        ih fun d' hd' => h d' (List.mem_cons_of_mem _ hd')⟩

theorem matchAt_sound {l : List Char} {g : Groups} (h : matchAt l = some g) :
    (∀ c ∈ g.trad, isGoSpace c = false) ∧ (∀ c ∈ g.simpl, isGoSpace c = false) ∧
    g.pin ≠ [] ∧ '\n' ∉ g.pin ∧ g.dfs ≠ [] ∧ '\n' ∉ g.dfs ∧
    ∃ tl, l = g.trad ++ ' ' :: (g.simpl ++ ' ' :: '[' ::
      (g.pin ++ ']' :: ' ' :: '/' :: (g.dfs ++ '/' :: tl))) := by
  unfold matchAt at h
  cases htk1 : takeTok l with
  | none => rw [htk1] at h; cases h
  | some tr1 =>
    obtain ⟨trad, r1⟩ := tr1
    rw [htk1] at h
    dsimp only at h
    cases htk2 : takeTok r1 with
    | none => rw [htk2] at h; cases h
    | some tr2 =>
      obtain ⟨simpl, r2⟩ := tr2
      rw [htk2] at h
      dsimp only at h
      cases r2 with
      | nil => cases h
      | cons c r3 =>
        dsimp only at h
        by_cases hc : c = '['
        · rw [if_pos hc] at h
          subst hc
          cases hps : pinSplit r3 with
          | none => rw [hps] at h; cases h
          | some pd =>
            obtain ⟨p, d⟩ := pd
            rw [hps] at h
            dsimp only at h
            by_cases hp : p = []
            · rw [if_pos hp] at h; cases h
            · rw [if_neg hp] at h
              cases h
              obtain ⟨hl1, htr⟩ := takeTok_sound htk1
              obtain ⟨hl2, hsi⟩ := takeTok_sound htk2
              obtain ⟨hnl, rest, hl3, hmd⟩ := pinSplit_sound hps
              obtain ⟨hdne, hdnl, tl, hrest⟩ := matchDefs_sound hmd
              refine ⟨htr, hsi, hp, hnl, hdne, hdnl, tl, ?_⟩
              rw [hl1, hl2, hl3, hrest]
        · rw [if_neg hc] at h; cases h

theorem findMatch_cons (c : Char) (cs : List Char) :
    findMatch (c :: cs) =
      match matchAt (c :: cs) with
      | some g => some g
      | none => findMatch cs := rfl

theorem findMatch_sound :
    ∀ {l : List Char} {g : Groups}, findMatch l = some g →
    ∃ pre suf, l = pre ++ suf ∧ matchAt suf = some g := by
  intro l
  induction l with
  | nil => intro g h; cases h
  | cons c cs ih =>
    intro g h
    rw [findMatch_cons] at h
    cases hma : matchAt (c :: cs) with
    | some g' =>
      rw [hma] at h
      dsimp only at h
      cases h
      exact ⟨[], c :: cs, rfl, hma⟩
    | none =>
      rw [hma] at h
      dsimp only at h
      obtain ⟨pre, suf, hl, hsuf⟩ := ih h
      exact ⟨c :: pre, suf, by rw [List.cons_append, ← hl], hsuf⟩

theorem matchAt_isSome {trad simpl pinyin ds : List Char} (tail : List Char)
    (htr : ∀ c ∈ trad, isGoSpace c = false)
    (hsi : ∀ c ∈ simpl, isGoSpace c = false)
    (hpne : pinyin ≠ []) (hpnl : '\n' ∉ pinyin)
    (hdne : ds ≠ []) (hdnl : '\n' ∉ ds) :
    (matchAt (trad ++ ' ' :: (simpl ++ ' ' :: '[' ::
      (pinyin ++ ']' :: ' ' :: '/' :: (ds ++ '/' :: tail))))).isSome := by
  obtain ⟨d, hmd⟩ := matchDefs_exists tail hdnl hdne
  obtain ⟨p', d', hps, hlen⟩ := pinSplit_exists hpnl hmd
  have hp'ne : p' ≠ [] := by
    intro e
    subst e
    have : pinyin.length = 0 := by simpa using hlen
    exact hpne (List.length_eq_zero.mp this)
  unfold matchAt
  rw [takeTok_build _ htr]
  dsimp only
  rw [takeTok_build _ hsi]
  dsimp only
  rw [if_pos rfl, hps]
  dsimp only
  rw [if_neg hp'ne]
  simp

/-- The match succeeds exactly on lines with the entry shape. -/
theorem findMatch_isSome_iff (s : String) :
    (findMatch s.data).isSome ↔ EntryShape s := by
  constructor
  · intro h
    obtain ⟨g, hg⟩ := Option.isSome_iff_exists.mp h
    obtain ⟨pre, suf, hps, hma⟩ := findMatch_sound hg
    obtain ⟨htr, hsi, hpne, hpnl, hdne, hdnl, tl, hsuf⟩ := matchAt_sound hma
    refine ⟨pre, g.trad, g.simpl, g.pin, g.dfs, tl, ?_, htr, hsi, hpne, hpnl,
      hdne, hdnl⟩
    rw [hps, hsuf]
    simp
  · rintro ⟨pre, trad, simpl, pinyin, ds, tail, hdecomp, htr, hsi, hpne, hpnl,
      hdne, hdnl⟩
    have hsuf := matchAt_isSome tail htr hsi hpne hpnl hdne hdnl
    obtain ⟨g, hg⟩ := Option.isSome_iff_exists.mp hsuf
    have hl : s.data = pre ++ (trad ++ ' ' :: (simpl ++ ' ' :: '[' ::
        (pinyin ++ ']' :: ' ' :: '/' :: (ds ++ '/' :: tail)))) := by
      rw [hdecomp]
      simp
    rw [hl]
    exact findMatch_isSome_suffix pre hg

theorem parseEntryL_badFormat_iff {l : List Char} :
    parseEntryL l = .badFormat ↔ findMatch l = none := by
  unfold parseEntryL
  cases hfm : findMatch l with
  | none => simp
  | some g =>
    dsimp only
    constructor
    · intro h
      cases hct : convertToTones ⟨lowerList g.pin⟩ <;>
        cases hnt : pinyinNoTones ⟨lowerList g.pin⟩ <;>
        rw [hct, hnt] at h <;> cases h
    · intro h; cases h

/-- `parseEntry` on a grammatical line: the line assembled from its four
components is accepted and the components are recovered (pinyin lower-cased,
definitions split back apart). -/
theorem parseEntryL_build {trad simpl pinyin : List Char} {defs : List (List Char)}
    (htr : ∀ c ∈ trad, isGoSpace c = false)
    (hsi : ∀ c ∈ simpl, isGoSpace c = false)
    (hpne : pinyin ≠ []) (hpnl : '\n' ∉ pinyin)
    (hdefs : defs ≠ []) (hdnn : ∀ d ∈ defs, d ≠ [] ∧ '/' ∉ d ∧ '\n' ∉ d)
    (hnox : ¬ ∃ a b, joinSlash defs = a ++ ']' :: ' ' :: '/' :: b)
    (htok1 : [] ∉ splitOnChar ' ' (replaceUU (lowerList pinyin)))
    (htok2 : [] ∉ splitOnChar ' ' (replaceUV (lowerList pinyin))) :
    ∃ wt nt,
      parseEntryL (trad ++ ' ' :: (simpl ++ ' ' :: '[' ::
        (pinyin ++ ']' :: ' ' :: '/' :: (joinSlash defs ++ ['/'])))) =
      .ok ⟨⟨simpl⟩, ⟨trad⟩, ⟨lowerList pinyin⟩, wt, nt, defs.map (⟨·⟩)⟩ := by
  have hdsne := joinSlash_ne_nil hdefs fun d hd => (hdnn d hd).1
  have hdsnl := joinSlash_not_mem (by decide) fun d hd => (hdnn d hd).2.2
  have hma := matchAt_build htr hsi hpne hpnl hdsnl hdsne hnox
  obtain ⟨wt, hwt⟩ :=
    @convertToTones_isSome (⟨lowerList pinyin⟩ : String) htok1
  obtain ⟨nt, hnt⟩ :=
    @pinyinNoTones_isSome (⟨lowerList pinyin⟩ : String) htok2
  refine ⟨wt, nt, ?_⟩
  unfold parseEntryL
  rw [findMatch_of_matchAt hma]
  dsimp only
  rw [hwt, hnt]
  dsimp only
  rw [splitSlash_join hdefs fun d hd => (hdnn d hd).2.1]

/-! ## Helper lemmas: driving the tokenizer -/

theorem nextEntryGo_cons (l : List Char) (lines : List (List Char))
    (cur : Option Entry) :
    nextEntryGo (l :: lines) cur =
      if l = [] then nextEntryGo lines cur
      else if classifyIsComment l then nextEntryGo lines cur
      else
        match parseEntryL l with
        | .ok e => (.ok, ⟨lines, some e⟩)
        | .badFormat => (.badFormat, ⟨lines, cur⟩)
        | .crash => (.crash, ⟨lines, cur⟩) := rfl

theorem drive_nil (cur : Option Entry) : drive ⟨[], cur⟩ = ([], .crash) := by
  rw [drive]; rfl

theorem drive_eq_of_nextEntry {s1 s2 : CEDictState}
    (h : nextEntry s1 = nextEntry s2) : drive s1 = drive s2 := by
  rw [drive, drive, h]

theorem drive_step_ok {s s' : CEDictState} {e : Entry}
    (h : nextEntry s = (.ok, s')) (he : s'.entry = some e) :
    drive s = (e :: (drive s').1, (drive s').2) := by
  rw [drive, h]
  dsimp only
  rw [he]

theorem drive_step_bad {s s' : CEDictState}
    (h : nextEntry s = (.badFormat, s')) : drive s = ([], .badFormat) := by
  rw [drive, h]

theorem entriesOf_cons (l : List Char) (lines : List (List Char)) :
    entriesOf (l :: lines) =
      if classifyIsComment l then entriesOf lines
      else
        match parseEntryL l with
        | .ok e => e :: entriesOf lines
        | _ => entriesOf lines := rfl

/-- Driving a stream of comment lines and well-formed entry lines collects
exactly the entries in source order and then hits the exhaustion panic. -/
theorem drive_spec :
    ∀ (n : Nat) (lines : List (List Char)) (cur : Option Entry),
    lines.length ≤ n →
    (∀ l ∈ lines, classifyIsComment l = true ∨ ∃ e, parseEntryL l = .ok e) →
    drive ⟨lines, cur⟩ = (entriesOf lines, .crash) := by
  intro n
  induction n with
  | zero =>
    intro lines cur hlen hwf
    have hnil : lines = [] := List.eq_nil_of_length_eq_zero (Nat.le_zero.mp hlen)
    subst hnil
    exact drive_nil cur
  | succ n ih =>
    intro lines cur hlen hwf
    cases lines with
    | nil => exact drive_nil cur
    | cons l rest =>
      have hlen' : rest.length ≤ n := by
        simp only [List.length_cons] at hlen
        omega
      have hwf' : ∀ l' ∈ rest, classifyIsComment l' = true ∨
          ∃ e, parseEntryL l' = .ok e :=
        fun l' hl' => hwf l' (List.mem_cons_of_mem _ hl')
      by_cases hcm : classifyIsComment l = true
      · have hlne : l ≠ [] := by
          intro e'
          rw [e'] at hcm
          simp [classifyIsComment] at hcm
        have hstep : nextEntry ⟨l :: rest, cur⟩ = nextEntry ⟨rest, cur⟩ := by
          show nextEntryGo (l :: rest) cur = nextEntryGo rest cur
          rw [nextEntryGo_cons, if_neg hlne, if_pos hcm]
        rw [drive_eq_of_nextEntry hstep, ih rest cur hlen' hwf',
          entriesOf_cons, if_pos hcm]
      · rcases hwf l (List.mem_cons_self _ _) with hc | ⟨e, he⟩
        · exact absurd hc hcm
        · have hlne : l ≠ [] := by
            intro e'
            rw [e'] at he
            have hbf : parseEntryL [] = .badFormat := rfl
            rw [hbf] at he
            cases he
          have hstep : nextEntry ⟨l :: rest, cur⟩ = (.ok, ⟨rest, some e⟩) := by
            show nextEntryGo (l :: rest) cur = (.ok, ⟨rest, some e⟩)
            rw [nextEntryGo_cons, if_neg hlne, if_neg hcm, he]
          rw [drive_step_ok hstep rfl, ih rest (some e) hlen' hwf',
            entriesOf_cons, if_neg hcm, he]

/-! ## Helper lemmas: the spec-side delimiter functions -/

theorem splitAtFirst_cons (sep x : Char) (xs : List Char) :
    splitAtFirst sep (x :: xs) =
      if x = sep then some ([], xs)
      else
        match splitAtFirst sep xs with
        | some (a, b) => some (x :: a, b)
        | none => none := rfl

theorem splitAtLast_cons (sep x : Char) (xs : List Char) :
    splitAtLast sep (x :: xs) =
      match splitAtLast sep xs with
      | some (a, b) => some (x :: a, b)
      | none => if x = sep then some ([], xs) else none := rfl

theorem splitAtFirst_build {c : Char} :
    ∀ {a : List Char} (b : List Char), c ∉ a →
    splitAtFirst c (a ++ c :: b) = some (a, b) := by
  intro a
  induction a with
  | nil =>
    intro b _
    rw [List.nil_append, splitAtFirst_cons, if_pos rfl]
  | cons x xs ih =>
    intro b h
    have hx : x ≠ c := fun e => h (e ▸ List.mem_cons_self _ _)
    rw [List.cons_append, splitAtFirst_cons, if_neg hx,
      ih b fun hm => h (List.mem_cons_of_mem _ hm)]

theorem splitAtLast_concat (c : Char) :
    ∀ (a : List Char), splitAtLast c (a ++ [c]) = some (a, []) := by
  intro a
  induction a with
  | nil =>
    rw [List.nil_append, splitAtLast_cons, show splitAtLast c [] = none from rfl]
    dsimp only
    rw [if_pos rfl]
  | cons x xs ih => rw [List.cons_append, splitAtLast_cons, ih]

theorem betweenBrackets_build {pre pinyin : List Char} (rest2 : List Char)
    (hpre : '[' ∉ pre) (hpin : ']' ∉ pinyin) :
    betweenBrackets (pre ++ '[' :: (pinyin ++ ']' :: rest2)) = some pinyin := by
  unfold betweenBrackets
  rw [splitAtFirst_build _ hpre]
  dsimp only
  rw [splitAtFirst_build _ hpin]

theorem defsText_build {pre pinyin ds : List Char}
    (hpre : '[' ∉ pre) (hpin : ']' ∉ pinyin) :
    defsText (pre ++ '[' :: (pinyin ++ ']' :: ' ' :: '/' :: (ds ++ ['/']))) =
      some ds := by
  unfold defsText
  rw [splitAtFirst_build _ hpre]
  dsimp only
  rw [splitAtFirst_build _ hpin]
  dsimp only
  rw [show (' ' :: '/' :: (ds ++ ['/'])) = [' '] ++ '/' :: (ds ++ ['/']) from rfl,
    splitAtFirst_build _ (by decide)]
  dsimp only
  rw [splitAtLast_concat]

/-- A neutral tone (row `0` or row `5`) leaves a markable syllable
unchanged. -/
theorem map_mark_id {s : List Char} {v m : Char} (hm : m = v) :
    s.map (fun c => if c = v then m else c) = s := by
  have h : ∀ c ∈ s, (fun c => if c = v then m else c) c = id c := by
    intro c _
    by_cases hc : c = v
    · simp [hc, hm]
    · simp [hc]
  rw [List.map_congr_left h, List.map_id]

theorem replaceWithToneMark_neutral {s : List Char} {tone : Nat}
    (htone : tone = 0 ∨ tone = 5) (h : ∃ c ∈ s, c ∈ pinyinVowels) :
    replaceWithToneMark s tone = some s := by
  have ht' : ¬tone > 5 := by rcases htone with rfl | rfl <;> omega
  have hneut : ∀ c : Char, toneVowel tone c = c := by
    rcases htone with rfl | rfl
    · exact toneVowel_zero
    · exact toneVowel_five
  unfold replaceWithToneMark
  rw [if_neg ht']
  by_cases ha : 'a' ∈ s
  · rw [if_pos ha, map_mark_id (hneut 'a')]
  · rw [if_neg ha]
    by_cases he : 'e' ∈ s
    · rw [if_pos he, map_mark_id (hneut 'e')]
    · rw [if_neg he]
      by_cases ho : containsOU s = true
      · rw [if_pos ho, map_mark_id (hneut 'o')]
      · rw [if_neg ho]
        obtain ⟨c, hc, hcv⟩ := h
        have hv : c = 'i' ∨ c = 'ü' ∨ c = 'o' ∨ c = 'u' := by
          simp only [pinyinVowels, List.mem_cons, List.not_mem_nil, or_false] at hcv
          rcases hcv with rfl | rfl | rfl | rfl | rfl | rfl
          · exact absurd hc ha
          · exact absurd hc he
          · exact Or.inl rfl
          · exact Or.inr (Or.inr (Or.inl rfl))
          · exact Or.inr (Or.inr (Or.inr rfl))
          · exact Or.inr (Or.inl rfl)
        obtain ⟨i, hi⟩ := Option.isSome_iff_exists.mp (lastVowelIdx_isSome hc hv)
        rw [hi]
        dsimp only
        rw [markAt_eq_self htone]

/-! ## Claim C1 -/

/-- C1 (counterexample): the tone renderer does not pass an unmarkable token
through: on `"yan3 bu4 jian4 , xin1 bu4 fan2"` the comma syllable makes
`convertToTones` return the empty string for the whole field, not
`"yǎnbùjiàn,xīnbùfán"`. -/
theorem c1_counterexample :
    convertToTones "yan3 bu4 jian4 , xin1 bu4 fan2" = some "" ∧
    (some "" : Option String) ≠ some "yǎnbùjiàn,xīnbùfán" :=
  ⟨rfl, by decide⟩

/-- C1 (amended): a syllable token with no markable vowel causes
`convertToTones` to return the empty string for the entire input (provided no
token is empty, which would crash instead): the surrounding syllables are
discarded rather than rendered. -/
theorem c1_unmarkable_token_empties_field (p : String)
    (hne : [] ∉ splitOnChar ' ' (replaceUU p.data))
    (hex : ∃ t ∈ splitOnChar ' ' (replaceUU p.data),
      ∀ c ∈ dropToneDigit t, c ∉ pinyinVowels) :
    convertToTones p = some "" := by
  unfold convertToTones
  rw [convertGo_errEmpty hne hex]

/-- C1 (witness): the amended theorem applied to the comma input. -/
theorem c1_witness : convertToTones "yan3 bu4 jian4 , xin1 bu4 fan2" = some "" :=
  c1_unmarkable_token_empties_field _ (by decide) (by decide)

/-! ## Claim C5 -/

/-- C5 (counterexample): the renderers are not total — an empty syllable
token makes `extractTone` index out of range (a crash, modelled `none`); and
a trailing `'0'` is stripped rather than passed through unchanged. -/
theorem c5_counterexample :
    pinyinNoTones "" = none ∧ convertToTones "" = none ∧
    pinyinNoTones "ma0" = some "ma" ∧
    (some "ma" : Option String) ≠ some "ma0" :=
  ⟨rfl, rfl, rfl, by decide⟩

/-- C5 (amended): both renderers return a value on every input whose
space-split tokens are all non-empty (an empty token crashes); a non-empty
token whose last character is not a digit `'0'..'5'` passes through unchanged
with neutral tone, while a trailing `'0'` is stripped like a tone digit and
rendered with no mark. -/
theorem c5_totality_and_passthrough (p : String) (t : List Char) (c : Char) :
    ([] ∉ splitOnChar ' ' (replaceUU p.data) → ∃ r, convertToTones p = some r) ∧
    ([] ∉ splitOnChar ' ' (replaceUV p.data) → ∃ r, pinyinNoTones p = some r) ∧
    (¬(48 ≤ c.toNat ∧ c.toNat ≤ 53) →
      extractTone (t ++ [c]) = some (t ++ [c], 0)) ∧
    extractTone (t ++ ['0']) = some (t, 0) := by
  refine ⟨fun h => convertToTones_isSome h, fun h => pinyinNoTones_isSome h,
    fun h => extractTone_passthrough t c h, ?_⟩
  exact extractTone_strip t '0' (by decide)

/-- C5 (witness). -/
theorem c5_witness :
    (∃ r, convertToTones "yi1" = some r) ∧
    (∃ r, pinyinNoTones "yi1" = some r) ∧
    extractTone (['m', 'a'] ++ [',']) = some (['m', 'a'] ++ [','], 0) ∧
    extractTone (['m', 'a'] ++ ['0']) = some (['m', 'a'], 0) :=
  ⟨(c5_totality_and_passthrough "yi1" ['m', 'a'] ',').1 (by decide),
   (c5_totality_and_passthrough "yi1" ['m', 'a'] ',').2.1 (by decide),
   (c5_totality_and_passthrough "yi1" ['m', 'a'] ',').2.2.1 (by decide),
   (c5_totality_and_passthrough "yi1" ['m', 'a'] ',').2.2.2⟩

/-! ## Claim C6 -/

/-- C6: diacritic placement follows the four ordered rules, first match wins
(all occurrences of `a`; else all occurrences of `e`; else, if `ou` occurs,
all occurrences of `o`; else the right-most of `i`, `ü`, `o`, `u`); tone 5
and the unset tone apply no mark to a markable syllable; and
`convertToTones "yi1 lan3 zi5" = "yīlǎnzi"`. -/
theorem c6_placement_rules (s : List Char) (tone : Nat) :
    (1 ≤ tone → tone ≤ 4 →
      (('a' ∈ s → replaceWithToneMark s tone =
          some (s.map fun c => if c = 'a' then toneVowel tone 'a' else c)) ∧
        ('a' ∉ s → 'e' ∈ s → replaceWithToneMark s tone =
          some (s.map fun c => if c = 'e' then toneVowel tone 'e' else c)) ∧
        ('a' ∉ s → 'e' ∉ s → containsOU s = true → replaceWithToneMark s tone =
          some (s.map fun c => if c = 'o' then toneVowel tone 'o' else c)) ∧
        ('a' ∉ s → 'e' ∉ s → containsOU s = false →
          ∀ i, lastVowelIdx s = some i →
          replaceWithToneMark s tone = some (markAt tone s i)))) ∧
    ((tone = 0 ∨ tone = 5) → (∃ c ∈ s, c ∈ pinyinVowels) →
      replaceWithToneMark s tone = some s) ∧
    convertToTones "yi1 lan3 zi5" = some "yīlǎnzi" := by
  refine ⟨fun h1 h4 => ?_, fun ht hex => replaceWithToneMark_neutral ht hex, rfl⟩
  have ht' : ¬tone > 5 := by omega
  refine ⟨fun ha => ?_, fun ha he => ?_, fun ha he ho => ?_,
    fun ha he ho i hi => ?_⟩
  · unfold replaceWithToneMark
    rw [if_neg ht', if_pos ha]
  · unfold replaceWithToneMark
    rw [if_neg ht', if_neg ha, if_pos he]
  · unfold replaceWithToneMark
    rw [if_neg ht', if_neg ha, if_neg he, if_pos ho]
  · unfold replaceWithToneMark
    rw [if_neg ht', if_neg ha, if_neg he, if_neg (by simp [ho]), hi]

/-- C6 (witness). -/
theorem c6_witness :
    replaceWithToneMark ['n', 'i'] 3 = some ['n', 'ǐ'] ∧
    replaceWithToneMark ['z', 'i'] 5 = some ['z', 'i'] :=
  ⟨(((c6_placement_rules ['n', 'i'] 3).1 (by decide) (by decide)).2.2.2)
      (by decide) (by decide) (by decide) 1 (by decide),
   (c6_placement_rules ['z', 'i'] 5).2.1 (Or.inr rfl) (by decide)⟩

/-! ## Claim C7 -/

/-- C7 (counterexample): `pinyinNoTones` is not defined on every input — an
empty token (here from a double space) makes it crash instead of producing
the concatenation of the processed syllables. -/
theorem c7_counterexample :
    pinyinNoTones "a  b" = none ∧ (none : Option String) ≠ some "ab" :=
  ⟨rfl, by decide⟩

/-- C7 (amended): for every input whose space-split tokens (after the
`u:`→`v` substitution) are all non-empty, the toneless renderer substitutes
every `u:` with `v`, drops each syllable's trailing tone digit with no
diacritic substitution, and concatenates the results with no separators; in
particular `"yi1 lan3 zi5"` renders `"yilanzi"` and `"lu:4"` renders
`"lv"`. -/
theorem c7_toneless_rendering (p : String) :
    ([] ∉ splitOnChar ' ' (replaceUV p.data) →
      pinyinNoTones p =
        some ⟨((splitOnChar ' ' (replaceUV p.data)).map dropToneDigit).flatten⟩) ∧
    pinyinNoTones "yi1 lan3 zi5" = some "yilanzi" ∧
    pinyinNoTones "lu:4" = some "lv" := by
  refine ⟨fun h => ?_, rfl, rfl⟩
  unfold pinyinNoTones
  rw [noTonesGo_eq h]
  rfl

/-- C7 (witness). -/
theorem c7_witness :
    pinyinNoTones "yi1 bi4" =
      some ⟨((splitOnChar ' '
        (replaceUV "yi1 bi4".data)).map dropToneDigit).flatten⟩ :=
  (c7_toneless_rendering "yi1 bi4").1 (by decide)

/-! ## Claim C2 -/

/-- C2 (counterexample): on the grammatical line `"x y [p] /a] /b/"` (pinyin
segment `p`, definition segments `a] ` and `b`), the greedy regexp captures
pinyin `"p] /a"` — not the bracketed text `"p"` — and keeps only the final
definition. -/
theorem c2_counterexample :
    parseEntry "x y [p] /a] /b/" =
      .ok ⟨"y", "x", "p] /a", "", "p]/a", ["b"]⟩ ∧
    ("p] /a" : String) ≠ "p" ∧ (["b"] : List String) ≠ ["a] ", "b"] :=
  ⟨by decide, by decide, by decide⟩

/-- C2 (amended): for every line of the form `TRAD SIMP [PINYIN]
/DEF1/.../DEFn/` matching the entry grammar (non-empty whitespace-free script
tokens; non-empty newline-free pinyin made of non-empty space-separated
syllables; non-empty slash-free newline-free definitions) whose joined
definitions text does not contain the delimiter `"] /"`, `parseEntry`
succeeds and recovers the two script tokens, the bracketed pinyin
lower-cased, and the `/`-separated definitions in source order; in particular
the example line yields definitions `["one side", "at the same time"]`. -/
theorem c2_parse_recovers_fields {trad simpl pinyin : List Char}
    {defs : List (List Char)}
    (htr : trad ≠ [] ∧ ∀ c ∈ trad, isGoSpace c = false)
    (hsi : simpl ≠ [] ∧ ∀ c ∈ simpl, isGoSpace c = false)
    (hpin : pinyin ≠ [] ∧ '\n' ∉ pinyin ∧
      [] ∉ splitOnChar ' ' (replaceUU (lowerList pinyin)) ∧
      [] ∉ splitOnChar ' ' (replaceUV (lowerList pinyin)))
    (hdefs : defs ≠ [] ∧ ∀ d ∈ defs, d ≠ [] ∧ '/' ∉ d ∧ '\n' ∉ d)
    (hnox : ¬ ∃ a b, joinSlash defs = a ++ ']' :: ' ' :: '/' :: b) :
    (∃ e, parseEntryL (trad ++ ' ' :: (simpl ++ ' ' :: '[' ::
        (pinyin ++ ']' :: ' ' :: '/' :: (joinSlash defs ++ ['/'])))) = .ok e ∧
      e.Traditional = ⟨trad⟩ ∧ e.Simplified = ⟨simpl⟩ ∧
      e.Pinyin = ⟨lowerList pinyin⟩ ∧ e.Definitions = defs.map (⟨·⟩)) ∧
    (∃ e2, parseEntry "一壁 一壁 [yi1 bi4] /one side/at the same time/" =
        .ok e2 ∧ e2.Definitions = ["one side", "at the same time"]) := by
  constructor
  · obtain ⟨wt, nt, hp⟩ := parseEntryL_build htr.2 hsi.2 hpin.1 hpin.2.1
      hdefs.1 hdefs.2 hnox hpin.2.2.1 hpin.2.2.2
    exact ⟨_, hp, rfl, rfl, rfl, rfl⟩
  · exact ⟨⟨"一壁", "一壁", "yi1 bi4", "yībì", "yibi",
      ["one side", "at the same time"]⟩, by decide, rfl⟩

/-- C2 (witness). -/
theorem c2_witness :
    ∃ e, parseEntryL (['x'] ++ ' ' :: (['y'] ++ ' ' :: '[' ::
        (['y', 'i', '1'] ++ ']' :: ' ' :: '/' ::
          (joinSlash [['d']] ++ ['/'])))) = .ok e ∧
      e.Traditional = ⟨['x']⟩ ∧ e.Simplified = ⟨['y']⟩ ∧
      e.Pinyin = ⟨lowerList ['y', 'i', '1']⟩ ∧
      e.Definitions = [['d']].map (⟨·⟩) :=
  (c2_parse_recovers_fields (by decide) (by decide)
    ⟨by decide, by decide, by decide, by decide⟩
    ⟨by decide, by decide⟩
    (by
      rintro ⟨a, b, h⟩
      have hlen := congrArg List.length h
      simp [joinSlash] at hlen
      omega)).1

/-! ## Claim C4 -/

/-- C4: `parseEntry` fails with the bad-format error exactly when the line
has no decomposition into the entry shape — two whitespace-free tokens
followed by a bracketed non-empty pinyin segment and a slash-delimited
non-empty definitions segment — and on failure no Entry is produced. -/
theorem c4_badFormat_iff_no_shape (s : String) :
    (parseEntry s = .badFormat ↔ ¬ EntryShape s) ∧
    (parseEntry s = .badFormat → ∀ e, parseEntry s ≠ .ok e) := by
  constructor
  · rw [show parseEntry s = parseEntryL s.data from rfl, parseEntryL_badFormat_iff]
    constructor
    · intro h hshape
      have hs := (findMatch_isSome_iff s).mpr hshape
      rw [h] at hs
      simp at hs
    · intro h
      cases hfm : findMatch s.data with
      | none => rfl
      | some g => exact absurd ((findMatch_isSome_iff s).mp (by simp [hfm])) h
  · intro h e he
    rw [he] at h
    cases h

/-- C4 (witness). -/
theorem c4_witness :
    ¬ EntryShape "nope" ∧ parseEntry "x y [p] /d/" ≠ .badFormat := by
  constructor
  · exact (c4_badFormat_iff_no_shape "nope").1.mp (by decide)
  · intro hbad
    exact (c4_badFormat_iff_no_shape "x y [p] /d/").1.mp hbad
      ⟨[], ['x'], ['y'], ['p'], ['d'], [], by decide, by decide, by decide,
        by decide, by decide, by decide, by decide⟩

/-! ## Claim C9 -/

/-- C9 (counterexample): for accepted lines the stored pinyin is not in
general the text between the first `[` and the next `]`: the greedy match
takes the last viable `"] /"` delimiter, and the match's `[` need not be the
line's first `[`. -/
theorem c9_counterexample :
    parseEntry "q w [r] /c] /d/" =
      .ok ⟨"w", "q", "r] /c", "", "r]/c", ["d"]⟩ ∧
    betweenBrackets "q w [r] /c] /d/".data = some ['r'] ∧
    ("r] /c" : String) ≠ "r" ∧
    parseEntry "a[b y [p] /d/" = .ok ⟨"y", "a[b", "p", "", "p", ["d"]⟩ ∧
    betweenBrackets "a[b y [p] /d/".data =
      some ['b', ' ', 'y', ' ', '[', 'p'] ∧
    ("p" : String) ≠ "b y [p" :=
  ⟨by decide, by decide, by decide, by decide, by decide, by decide⟩

/-- C9 (amended): for grammatical lines whose script tokens contain no `[`,
whose pinyin contains no `]`, and whose joined definitions text does not
contain `"] /"`, the stored pinyin field is exactly the lower-cased text
between the first `[` of the line and the next `]`, and the stored
definitions are the text between the first `/` after that `]` and the final
`/`, split on `/`. -/
theorem c9_fields_from_delimiters {trad simpl pinyin : List Char}
    {defs : List (List Char)}
    (htr : trad ≠ [] ∧ '[' ∉ trad ∧ ∀ c ∈ trad, isGoSpace c = false)
    (hsi : simpl ≠ [] ∧ '[' ∉ simpl ∧ ∀ c ∈ simpl, isGoSpace c = false)
    (hpin : pinyin ≠ [] ∧ ']' ∉ pinyin ∧ '\n' ∉ pinyin ∧
      [] ∉ splitOnChar ' ' (replaceUU (lowerList pinyin)) ∧
      [] ∉ splitOnChar ' ' (replaceUV (lowerList pinyin)))
    (hdefs : defs ≠ [] ∧ ∀ d ∈ defs, d ≠ [] ∧ '/' ∉ d ∧ '\n' ∉ d)
    (hnox : ¬ ∃ a b, joinSlash defs = a ++ ']' :: ' ' :: '/' :: b) :
    ∃ e, parseEntryL (trad ++ ' ' :: (simpl ++ ' ' :: '[' ::
        (pinyin ++ ']' :: ' ' :: '/' :: (joinSlash defs ++ ['/'])))) = .ok e ∧
      (∃ bt, betweenBrackets (trad ++ ' ' :: (simpl ++ ' ' :: '[' ::
          (pinyin ++ ']' :: ' ' :: '/' :: (joinSlash defs ++ ['/'])))) =
          some bt ∧ e.Pinyin = ⟨lowerList bt⟩) ∧
      (∃ ds, defsText (trad ++ ' ' :: (simpl ++ ' ' :: '[' ::
          (pinyin ++ ']' :: ' ' :: '/' :: (joinSlash defs ++ ['/'])))) =
          some ds ∧ e.Definitions = (splitOnChar '/' ds).map (⟨·⟩)) := by
  obtain ⟨wt, nt, hp⟩ := parseEntryL_build htr.2.2 hsi.2.2 hpin.1 hpin.2.2.1
    hdefs.1 hdefs.2 hnox hpin.2.2.2.1 hpin.2.2.2.2
  have hline : trad ++ ' ' :: (simpl ++ ' ' :: '[' ::
      (pinyin ++ ']' :: ' ' :: '/' :: (joinSlash defs ++ ['/']))) =
      (trad ++ ' ' :: (simpl ++ [' '])) ++ '[' ::
      (pinyin ++ ']' :: (' ' :: '/' :: (joinSlash defs ++ ['/']))) := by
    simp
  have hpre : '[' ∉ trad ++ ' ' :: (simpl ++ [' ']) := by
    intro hm
    rcases List.mem_append.mp hm with h1 | h2
    · exact htr.2.1 h1
    · rcases List.mem_cons.mp h2 with h3 | h4
      · exact absurd h3 (by decide)
      · rcases List.mem_append.mp h4 with h5 | h6
        · exact hsi.2.1 h5
        · exact absurd (List.mem_singleton.mp h6) (by decide)
  refine ⟨_, hp, ⟨pinyin, ?_, rfl⟩, ⟨joinSlash defs, ?_, ?_⟩⟩
  · rw [hline, betweenBrackets_build _ hpre hpin.2.1]
  · rw [hline, defsText_build hpre hpin.2.1]
  · rw [splitSlash_join hdefs.1 fun d hd => (hdefs.2 d hd).2.1]

/-- C9 (witness). -/
theorem c9_witness :
    ∃ e, parseEntryL (['x'] ++ ' ' :: (['y'] ++ ' ' :: '[' ::
        (['e', '5'] ++ ']' :: ' ' :: '/' ::
          (joinSlash [['d']] ++ ['/'])))) = .ok e ∧
      (∃ bt, betweenBrackets (['x'] ++ ' ' :: (['y'] ++ ' ' :: '[' ::
          (['e', '5'] ++ ']' :: ' ' :: '/' :: (joinSlash [['d']] ++ ['/'])))) =
          some bt ∧ e.Pinyin = ⟨lowerList bt⟩) ∧
      (∃ ds, defsText (['x'] ++ ' ' :: (['y'] ++ ' ' :: '[' ::
          (['e', '5'] ++ ']' :: ' ' :: '/' :: (joinSlash [['d']] ++ ['/'])))) =
          some ds ∧ e.Definitions = (splitOnChar '/' ds).map (⟨·⟩)) :=
  c9_fields_from_delimiters
    ⟨by decide, by decide, by decide⟩ ⟨by decide, by decide, by decide⟩
    ⟨by decide, by decide, by decide, by decide, by decide⟩
    ⟨by decide, by decide⟩
    (by
      rintro ⟨a, b, h⟩
      have hlen := congrArg List.length h
      simp [joinSlash] at hlen
      omega)

/-! ## Claim C3 -/

/-- C3 (code bug): the claim matches the package's own tests and docs
(`TestCEDict` and `ExampleCEDict` drive `NextEntry` until `NoMoreEntries`),
but the split function installed by `New` reads `data[0]` without a length
guard, and the scanner's documented `SplitFunc` protocol calls it with an
empty slice once the input is exhausted — so the code panics there instead of
returning `NoMoreEntries`.  Evaluating the model: comments are skipped and
entries surface in source order, but the terminal outcome is the crash — on
the empty stream immediately — never `NoMoreEntries`. -/
theorem c3_exhaustion_panics :
    (∀ stream : String,
      (∀ l ∈ linesOf stream,
        classifyIsComment l = true ∨ ∃ e, parseEntryL l = .ok e) →
      drive ⟨linesOf stream, none⟩ = (entriesOf (linesOf stream), .crash)) ∧
    nextEntry ⟨linesOf "", none⟩ = (.crash, ⟨[], none⟩) ∧
    NextResult.crash ≠ NextResult.noMore := by
  refine ⟨fun stream hwf => drive_spec (linesOf stream).length _ none le_rfl hwf,
    rfl, by decide⟩

/-- C3 (witness): a stream with a comment and two entries yields the two
entries in order and then the exhaustion crash. -/
theorem c3_crash_witness :
    drive ⟨linesOf "# CC\n一層 一层 [yi1 ceng2] /layer/\nx y [e5] /f/g/",
        none⟩ =
      (entriesOf (linesOf "# CC\n一層 一层 [yi1 ceng2] /layer/\nx y [e5] /f/g/"),
        .crash) := by
  apply c3_exhaustion_panics.1
  intro l hl
  have hlines : linesOf "# CC\n一層 一层 [yi1 ceng2] /layer/\nx y [e5] /f/g/" =
      ["# CC".data, "一層 一层 [yi1 ceng2] /layer/".data, "x y [e5] /f/g/".data] :=
    by rfl
  rw [hlines] at hl
  rcases List.mem_cons.mp hl with rfl | hl2
  · exact Or.inl (by decide)
  rcases List.mem_cons.mp hl2 with rfl | hl3
  · exact Or.inr ⟨⟨"一层", "一層", "yi1 ceng2", "yīcéng", "yiceng", ["layer"]⟩,
      by decide⟩
  rcases List.mem_cons.mp hl3 with rfl | hl4
  · exact Or.inr ⟨⟨"y", "x", "e5", "e", "e", ["f", "g"]⟩, by decide⟩
  · simp at hl4

/-! ## Claim C8 -/

/-- C8 (counterexample): a blank entry line is never surfaced as a parse
error — the scanner suppresses its empty token, and the same `NextEntry` call
then runs into the exhaustion panic; no `BadFormat` is ever produced for the
stream holding one blank line. -/
theorem c8_counterexample :
    nextEntry ⟨linesOf "\n", none⟩ = (.crash, ⟨[], none⟩) ∧
    NextResult.crash ≠ NextResult.badFormat := ⟨rfl, by decide⟩

/-- C8 (amended): a line is classified Comment exactly when its first
character is `#` (so a blank line is classified Entry), but a blank entry
line produces an empty token that the scanner suppresses: it is silently
skipped and never handed to the parser. -/
theorem c8_classification (l : List Char) (lines : List (List Char))
    (cur : Option Entry) :
    (classifyIsComment l = true ↔ ∃ rest, l = '#' :: rest) ∧
    classifyIsComment [] = false ∧
    nextEntryGo ([] :: lines) cur = nextEntryGo lines cur := by
  refine ⟨?_, rfl, rfl⟩
  constructor
  · intro h
    cases l with
    | nil => simp [classifyIsComment] at h
    | cons c cs =>
      refine ⟨cs, ?_⟩
      have hc : c = '#' := by simpa [classifyIsComment] using h
      rw [hc]
  · rintro ⟨rest, rfl⟩
    simp [classifyIsComment]

/-- C8 (witness). -/
theorem c8_witness : classifyIsComment ['#', 'x'] = true :=
  (c8_classification ['#', 'x'] [] none).1.mpr ⟨['x'], rfl⟩

/-! ## Claim C10 -/

/-- C10: when `NextEntry` reaches an entry line that fails to parse, it
returns the parse error and leaves the current-entry cursor unchanged: a
subsequent `Entry()` call still returns the most recent successful entry (or
the initial `nil`). -/
theorem c10_badFormat_preserves_entry :
    ∀ (lines : List (List Char)) (cur : Option Entry) (s' : CEDictState),
    nextEntryGo lines cur = (.badFormat, s') → s'.entry = cur := by
  intro lines
  induction lines with
  | nil =>
    intro cur s' h
    rw [show nextEntryGo [] cur = (.crash, ⟨[], cur⟩) from rfl] at h
    injection h with h1 h2
    cases h1
  | cons l rest ih =>
    intro cur s' h
    rw [nextEntryGo_cons] at h
    by_cases hl : l = []
    · rw [if_pos hl] at h
      exact ih cur s' h
    · rw [if_neg hl] at h
      by_cases hc : classifyIsComment l = true
      · rw [if_pos hc] at h
        exact ih cur s' h
      · rw [if_neg hc] at h
        cases hp : parseEntryL l <;> rw [hp] at h <;> dsimp only at h
        · injection h with h1 h2
          cases h1
        · injection h with h1 h2
          rw [← h2]
        · injection h with h1 h2
          cases h1

/-- C10 (witness): a failing line after a successfully parsed entry leaves
the cursor holding that entry. -/
theorem c10_witness :
    (CEDictState.mk [] (some sampleEntry)).entry = some sampleEntry :=
  c10_badFormat_preserves_entry [['x']] (some sampleEntry)
    ⟨[], some sampleEntry⟩ (by decide)

end Cedict
